import Mathlib

/-!
# Verification of the `pasta_curves` arithmetic shim (`src/arithmetic.rs`)

The module under study widens a prime-field abstraction with extra constants
(`TWO_INV`, `ZETA`, `ROOT_OF_UNITY_INV`, `DELTA`), a constant-time
exponentiation `pow`, a square-root helper (`sqrt_ratio`, `sqrt_alt`,
`pow_by_t_minus1_over2`), and a blanket `Group` capability.  Field elements
are modelled as `ZMod p`; `[u64; 4]` exponents as four natural-number limbs
that are `< 2^64` by hypothesis.  Operations whose bodies live in the
external `ff` backend (and are therefore absent from the source tree) are
modelled from the specification and carry a `Modelled from the spec:`
doc comment.
-/

/-- A `[u64; 4]` little-endian limb array: `l0` is the least-significant limb. -/
structure Limbs4 where
  l0 : Nat
  l1 : Nat
  l2 : Nat
  l3 : Nat
deriving DecidableEq

/-- The 256-bit little-endian integer denoted by a `[u64; 4]` array
(Horner form, base `2^64`, least-significant limb first). -/
def Limbs4.leVal (e : Limbs4) : Nat :=
  e.l0 + 2 ^ 64 * (e.l1 + 2 ^ 64 * (e.l2 + 2 ^ 64 * e.l3))

/-- One iteration of the inner bit loop of `FieldExt::pow`
(src/arithmetic.rs:142-145): square the accumulator, multiply by the base
into `tmp`, and conditionally assign `tmp` into the accumulator iff bit `i`
of the limb `e` is set (`(e >> i) & 0x1`). -/
def powStep {p : Nat} (a : ZMod p) (e : Nat) (r : ZMod p) (i : Nat) : ZMod p :=
  let r2 := r * r
  let tmp := r2 * a
  if (e >>> i) &&& 1 = 1 then tmp else r2

/-- The inner loop `for i in (0..64).rev()` of `FieldExt::pow`
(src/arithmetic.rs:141-146), acting on one 64-bit limb `e`. -/
def FieldExt.powLimb {p : Nat} (a : ZMod p) (r : ZMod p) (e : Nat) : ZMod p :=
  (List.range 64).reverse.foldl (powStep a e) r

/-- `FieldExt::pow` (trait-provided body, src/arithmetic.rs:138-149):
`res = 1`, then `for e in by.iter().rev()` run the 64-bit inner loop. -/
def FieldExt.pow {p : Nat} (a : ZMod p) (e : Limbs4) : ZMod p :=
  ([e.l0, e.l1, e.l2, e.l3].reverse).foldl (FieldExt.powLimb a) 1

/-- `<T as FieldExt>::pow` from the blanket impl (src/arithmetic.rs:44-55);
its body is textually identical to the trait-provided default. -/
def FieldExtBlanket.pow {p : Nat} (a : ZMod p) (e : Limbs4) : ZMod p :=
  ([e.l0, e.l1, e.l2, e.l3].reverse).foldl
    (fun res e =>
      (List.range 64).reverse.foldl
        (fun r i =>
          let r2 := r * r
          let tmp := r2 * a
          if (e >>> i) &&& 1 = 1 then tmp else r2) res)
    1

/-- Peeling the most significant index from a descending fold over `range (n+1)`. -/
theorem foldl_range_reverse_succ {β : Type} (f : β → Nat → β) (n : Nat) (b : β) :
    (List.range (n + 1)).reverse.foldl f b = (List.range n).reverse.foldl f (f b n) := by
  rw [List.range_succ, List.reverse_append]
  simp

/-- Invariant of the square-and-conditionally-multiply bit loop: processing
bits `n-1 … 0` of `e` starting from accumulator `r` yields
`r ^ 2^n * a ^ (e mod 2^n)`. -/
theorem powStep_fold_eq {p : Nat} (a : ZMod p) (e : Nat) :
    ∀ (n : Nat) (r : ZMod p),
      (List.range n).reverse.foldl (powStep a e) r = r ^ 2 ^ n * a ^ (e % 2 ^ n) := by
  intro n
  induction n with
  | zero =>
    intro r
    simp [pow_one, Nat.mod_one]
  | succ n ih =>
    intro r
    rw [foldl_range_reverse_succ, ih]
    have hbit : (e >>> n) &&& 1 = e / 2 ^ n % 2 := by
      rw [Nat.shiftRight_eq_div_pow, Nat.and_one_is_mod]
    have hmod : e % 2 ^ (n + 1) = e % 2 ^ n + 2 ^ n * (e / 2 ^ n % 2) :=
      Nat.mod_pow_succ
    show (powStep a e r n) ^ 2 ^ n * a ^ (e % 2 ^ n) = _
    unfold powStep
    rcases Nat.mod_two_eq_zero_or_one (e / 2 ^ n) with h2 | h2
    · rw [if_neg (by rw [hbit, h2]; exact one_ne_zero ∘ Eq.symm)]
      rw [hmod, h2, Nat.mul_zero, Nat.add_zero, pow_succ, pow_mul]
      ring
    · rw [if_pos (by rw [hbit, h2])]
      rw [hmod, h2, Nat.mul_one, pow_succ, pow_mul]
      ring

/-- The inner 64-bit loop raises the accumulator to the `2^64` and multiplies
in `a ^ (e mod 2^64)`. -/
theorem FieldExt.powLimb_eq {p : Nat} (a r : ZMod p) (e : Nat) :
    FieldExt.powLimb a r e = r ^ 2 ^ 64 * a ^ (e % 2 ^ 64) :=
  powStep_fold_eq a e 64 r

/-- Helper: `FieldExt::pow` computes the `leVal`-th power when every limb is
a `u64` (i.e. `< 2^64`). -/
theorem FieldExt.pow_spec {p : Nat} (a : ZMod p) (e : Limbs4)
    (h0 : e.l0 < 2 ^ 64) (h1 : e.l1 < 2 ^ 64)
    (h2 : e.l2 < 2 ^ 64) (h3 : e.l3 < 2 ^ 64) :
    FieldExt.pow a e = a ^ e.leVal := by
  obtain ⟨l0, l1, l2, l3⟩ := e
  simp only [FieldExt.pow, List.reverse_cons, List.reverse_nil, List.nil_append,
    List.cons_append, List.foldl_cons, List.foldl_nil]
  rw [FieldExt.powLimb_eq, FieldExt.powLimb_eq, FieldExt.powLimb_eq, FieldExt.powLimb_eq]
  rw [Nat.mod_eq_of_lt h0, Nat.mod_eq_of_lt h1, Nat.mod_eq_of_lt h2, Nat.mod_eq_of_lt h3]
  rw [one_pow, one_mul]
  unfold Limbs4.leVal
  ring

/-- C1: `FieldExt::pow(a, e)` computes `a` raised to the 256-bit little-endian
integer denoted by `e` (each limb being a `u64`, i.e. `< 2^64`); in
particular the zero exponent yields `1` for every base (including `0`,
convention `0^0 = 1`) and base `0` with a nonzero exponent yields `0`. -/
theorem pow_correct {p : Nat} (a : ZMod p) (e : Limbs4)
    (h0 : e.l0 < 2 ^ 64) (h1 : e.l1 < 2 ^ 64)
    (h2 : e.l2 < 2 ^ 64) (h3 : e.l3 < 2 ^ 64) :
    FieldExt.pow a e = a ^ e.leVal ∧
      (e.leVal = 0 → FieldExt.pow a e = 1) ∧
      (a = 0 → e.leVal ≠ 0 → FieldExt.pow a e = 0) := by
  have main := FieldExt.pow_spec a e h0 h1 h2 h3
  refine ⟨main, ?_, ?_⟩
  · intro hz
    rw [main, hz, pow_zero]
  · intro ha hz
    rw [main, ha, zero_pow hz]

/-- Closed-form instance of `pow_correct` at `p = 5`, `a = 3`, `e = [5,0,0,0]`. -/
theorem pow_correct_witness :
    (5 < 2 ^ 64) ∧
      (FieldExt.pow (3 : ZMod 5) ⟨5, 0, 0, 0⟩ = (3 : ZMod 5) ^ Limbs4.leVal ⟨5, 0, 0, 0⟩ ∧
        (Limbs4.leVal ⟨5, 0, 0, 0⟩ = 0 → FieldExt.pow (3 : ZMod 5) ⟨5, 0, 0, 0⟩ = 1) ∧
        ((3 : ZMod 5) = 0 → Limbs4.leVal ⟨5, 0, 0, 0⟩ ≠ 0 →
          FieldExt.pow (3 : ZMod 5) ⟨5, 0, 0, 0⟩ = 0)) :=
  ⟨by norm_num,
   pow_correct (3 : ZMod 5) ⟨5, 0, 0, 0⟩ (by norm_num) (by norm_num) (by norm_num) (by norm_num)⟩

/-- C10: the blanket-impl `pow` (src/arithmetic.rs:44-55) and the
trait-provided default `pow` (src/arithmetic.rs:138-149) agree on every base
and every exponent. -/
theorem pow_blanket_eq_default {p : Nat} (a : ZMod p) (e : Limbs4) :
    FieldExtBlanket.pow a e = FieldExt.pow a e := rfl

/-! ## Operation trace of the constant-time exponentiation (C5) -/

/-- The kinds of field operations the exponentiation loop performs. -/
inductive FieldOp where
  | square : FieldOp
  | mul : FieldOp
  | condAssign : FieldOp
deriving DecidableEq

/-- One inner-loop iteration of `FieldExt::pow` (src/arithmetic.rs:142-145),
instrumented with the operations it performs.  Each iteration executes a
squaring, a multiplication, and a conditional assignment, unconditionally:
the exponent bit only selects which already-computed value is kept. -/
def powTraceStep {p : Nat} (a : ZMod p) (e : Nat) (st : ZMod p × List FieldOp) (i : Nat) :
    ZMod p × List FieldOp :=
  let r2 := st.1 * st.1
  let tmp := r2 * a
  (if (e >>> i) &&& 1 = 1 then tmp else r2,
    st.2 ++ [FieldOp.square, FieldOp.mul, FieldOp.condAssign])

/-- The instrumented inner 64-bit loop of `FieldExt::pow`. -/
def FieldExt.powTraceLimb {p : Nat} (a : ZMod p) (st : ZMod p × List FieldOp) (e : Nat) :
    ZMod p × List FieldOp :=
  (List.range 64).reverse.foldl (powTraceStep a e) st

/-- The instrumented `FieldExt::pow`: the result together with the sequence
of field operations executed. -/
def FieldExt.powTrace {p : Nat} (a : ZMod p) (e : Limbs4) : ZMod p × List FieldOp :=
  ([e.l0, e.l1, e.l2, e.l3].reverse).foldl (FieldExt.powTraceLimb a) (1, [])

/-- The operation sequence of one 64-bit limb iteration. -/
def opTrace64 : List FieldOp :=
  (List.replicate 64 [FieldOp.square, FieldOp.mul, FieldOp.condAssign]).flatten

/-- The instrumented fold tracks the plain fold and appends a fixed operation
block per bit, independently of the exponent. -/
theorem powTraceStep_fold_eq {p : Nat} (a : ZMod p) (e : Nat) :
    ∀ (n : Nat) (st : ZMod p × List FieldOp),
      (List.range n).reverse.foldl (powTraceStep a e) st =
        ((List.range n).reverse.foldl (powStep a e) st.1,
          st.2 ++ (List.replicate n [FieldOp.square, FieldOp.mul, FieldOp.condAssign]).flatten) := by
  intro n
  induction n with
  | zero =>
    intro st
    simp
  | succ n ih =>
    intro st
    rw [foldl_range_reverse_succ, foldl_range_reverse_succ, ih]
    have hfst : (powTraceStep a e st n).1 = powStep a e st.1 n := rfl
    have hsnd : (powTraceStep a e st n).2 =
        st.2 ++ [FieldOp.square, FieldOp.mul, FieldOp.condAssign] := rfl
    rw [hfst, hsnd, List.replicate_succ, List.flatten_cons, List.append_assoc]

/-- The instrumented limb loop in closed form. -/
theorem FieldExt.powTraceLimb_eq {p : Nat} (a : ZMod p) (st : ZMod p × List FieldOp) (e : Nat) :
    FieldExt.powTraceLimb a st e = (FieldExt.powLimb a st.1 e, st.2 ++ opTrace64) :=
  powTraceStep_fold_eq a e 64 st

/-- The instrumented `pow` computes the same result as `pow` and always
produces the same fixed operation trace. -/
theorem FieldExt.powTrace_eq {p : Nat} (a : ZMod p) (e : Limbs4) :
    FieldExt.powTrace a e =
      (FieldExt.pow a e, opTrace64 ++ opTrace64 ++ opTrace64 ++ opTrace64) := by
  obtain ⟨l0, l1, l2, l3⟩ := e
  simp only [FieldExt.powTrace, FieldExt.pow, List.reverse_cons, List.reverse_nil,
    List.nil_append, List.cons_append, List.foldl_cons, List.foldl_nil]
  rw [FieldExt.powTraceLimb_eq, FieldExt.powTraceLimb_eq, FieldExt.powTraceLimb_eq,
    FieldExt.powTraceLimb_eq]
  simp

/-- C5: for any two 256-bit exponents the execution of `FieldExt::pow`
performs the identical sequence of field operations (square, multiply,
conditional-select) — the conditional assignment is executed on every bit,
never branching on the exponent — and the instrumented run returns exactly
the value of `pow`. -/
theorem pow_trace_independent {p : Nat} (a : ZMod p) (e f : Limbs4) :
    (FieldExt.powTrace a e).2 = (FieldExt.powTrace a f).2 ∧
      (FieldExt.powTrace a e).1 = FieldExt.pow a e := by
  rw [FieldExt.powTrace_eq, FieldExt.powTrace_eq]
  exact ⟨rfl, rfl⟩

/-! ## Variable-time exponentiation and `pow_by_t_minus1_over2` (C9) -/

/-- Modelled from the spec: `ff::Field::pow_vartime`, whose body lives in the
external `ff` backend and is absent from this repository.  Spec §4.2
describes the default as square-and-multiply left-to-right over the limb
bits, highest limb first, highest bit first. -/
def pow_vartime {p : Nat} (a : ZMod p) (e : Limbs4) : ZMod p :=
  ([e.l0, e.l1, e.l2, e.l3].reverse).foldl
    (fun res l =>
      (List.range 64).reverse.foldl
        (fun r i =>
          let r2 := r * r
          if (l >>> i) &&& 1 = 1 then r2 * a else r2) res)
    1

/-- `SqrtRatio::pow_by_t_minus1_over2` default body (src/arithmetic.rs:96-98):
delegates to `pow_vartime` at the constant `T_MINUS1_OVER2`, passed here as
the limb argument. -/
def SqrtRatio.pow_by_t_minus1_over2 {p : Nat} (a : ZMod p) (tm : Limbs4) : ZMod p :=
  pow_vartime a tm

/-- C9: the default `pow_by_t_minus1_over2` raises its argument to the power
`(T-1)/2`, where `T_MINUS1_OVER2` is the little-endian `[u64; 4]` encoding of
`(T-1)/2` with `p - 1 = 2^S * T`, `T` odd, computed by left-to-right
square-and-multiply over the limb bits. -/
theorem pow_by_t_minus1_over2_correct {p : Nat} (a : ZMod p) (tm : Limbs4) (S T : Nat)
    (hodd : Odd T) (hdec : p - 1 = 2 ^ S * T) (hval : tm.leVal = (T - 1) / 2)
    (h0 : tm.l0 < 2 ^ 64) (h1 : tm.l1 < 2 ^ 64)
    (h2 : tm.l2 < 2 ^ 64) (h3 : tm.l3 < 2 ^ 64) :
    SqrtRatio.pow_by_t_minus1_over2 a tm = a ^ ((T - 1) / 2) := by
  have hv : SqrtRatio.pow_by_t_minus1_over2 a tm = FieldExt.pow a tm := rfl
  rw [hv, FieldExt.pow_spec a tm h0 h1 h2 h3, hval]

/-- Closed-form instance of `pow_by_t_minus1_over2_correct` at `p = 13`
(`12 = 2^2 * 3`, `T = 3`, `(T-1)/2 = 1`). -/
theorem pow_by_t_minus1_over2_correct_witness :
    (Odd 3 ∧ (13 : Nat) - 1 = 2 ^ 2 * 3 ∧ Limbs4.leVal ⟨1, 0, 0, 0⟩ = (3 - 1) / 2) ∧
      SqrtRatio.pow_by_t_minus1_over2 (2 : ZMod 13) ⟨1, 0, 0, 0⟩ = (2 : ZMod 13) ^ ((3 - 1) / 2) :=
  ⟨⟨by decide, by norm_num, by decide⟩,
   pow_by_t_minus1_over2_correct (2 : ZMod 13) ⟨1, 0, 0, 0⟩ 2 3 (by decide) (by norm_num)
      (by decide) (by norm_num) (by norm_num) (by norm_num) (by norm_num)⟩

/-! ## Square roots: `sqrt_ratio` and `sqrt_alt` (C2, C3, C8) -/

/-- Bounded linear search: the least `x < n` with `x * x ≡ s (mod p)`,
preferring smaller candidates. -/
def findSqrtAux (p s : Nat) : Nat → Option Nat
  | 0 => none
  | n + 1 =>
    match findSqrtAux p s n with
    | some x => some x
    | none => if n * n % p = s then some n else none

/-- The least natural-number square root of `s : ZMod p`, if one exists. -/
def findSqrt (p : Nat) (s : ZMod p) : Option Nat :=
  findSqrtAux p s.val p

/-- The canonical square root of `s : ZMod p`: the lexicographically smaller
of the two roots (the one whose canonical representative is `≤ p/2`), or `0`
when `s` has no square root. -/
def sqrtCanon (p : Nat) (s : ZMod p) : ZMod p :=
  match findSqrt p s with
  | some x => (x : ZMod p)
  | none => 0

/-- Modelled from the spec: `SqrtRatio::sqrt_ratio` delegates to
`ff::Field::sqrt_ratio` (src/arithmetic.rs:104), whose body lives in the
external `ff` backend and is absent from this repository.  Per spec §4.2,
with `q = num/div`: the result is `(is_square, sqrt q)` when `q` is a nonzero
square and `(false, sqrt (ζ·q))` otherwise, where the non-square-case
multiplier is the parameter `zeta`; `num = 0` (with `div ≠ 0`) yields
`(true, 0)`; `div = 0` yields the sentinel `(true, 0)` iff `num = 0`, else
`(false, 0)`.  The returned root is the canonical one. -/
def sqrt_ratio (p : Nat) [Fact p.Prime] (zeta n d : ZMod p) : Bool × ZMod p :=
  if d = 0 then (if n = 0 then (true, 0) else (false, 0))
  else
    let q := n / d
    if q = 0 then (true, 0)
    else if (findSqrt p q).isSome then (true, sqrtCanon p q)
    else (false, sqrtCanon p (zeta * q))

/-- Modelled from the spec: `SqrtRatio::sqrt_alt` delegates to
`ff::Field::sqrt_alt` (src/arithmetic.rs:106), absent from this repository;
spec §4.2 describes it as the `num = self`, `div = 1` instance of the ratio
square root: the canonical root of `self` when `self` is a nonzero square,
of `ζ·self` otherwise, and `(true, 0)` at zero. -/
def sqrt_alt (p : Nat) [Fact p.Prime] (zeta a : ZMod p) : Bool × ZMod p :=
  if a = 0 then (true, 0)
  else if (findSqrt p a).isSome then (true, sqrtCanon p a)
  else (false, sqrtCanon p (zeta * a))

/-- A successful search result is a root below the fuel bound. -/
theorem findSqrtAux_some {p s : Nat} :
    ∀ {n x : Nat}, findSqrtAux p s n = some x → x < n ∧ x * x % p = s := by
  intro n
  induction n with
  | zero => intro x h; simp [findSqrtAux] at h
  | succ n ih =>
    intro x h
    unfold findSqrtAux at h
    cases hrec : findSqrtAux p s n with
    | some y =>
      rw [hrec] at h
      injection h with h
      obtain ⟨hlt, hsq⟩ := ih (h ▸ hrec)
      exact ⟨Nat.lt_succ_of_lt hlt, hsq⟩
    | none =>
      rw [hrec] at h
      by_cases hn : n * n % p = s
      · rw [if_pos hn] at h
        injection h with h
        exact ⟨h ▸ Nat.lt_succ_self n, h ▸ hn⟩
      · rw [if_neg hn] at h
        exact absurd h (Option.noConfusion)

/-- A failed search means no root below the fuel bound. -/
theorem findSqrtAux_none {p s : Nat} :
    ∀ {n : Nat}, findSqrtAux p s n = none → ∀ y, y < n → y * y % p ≠ s := by
  intro n
  induction n with
  | zero => intro _ y hy; omega
  | succ n ih =>
    intro h y hy
    unfold findSqrtAux at h
    cases hrec : findSqrtAux p s n with
    | some x => rw [hrec] at h; exact absurd h (Option.noConfusion)
    | none =>
      rw [hrec] at h
      by_cases hn : n * n % p = s
      · rw [if_pos hn] at h; exact absurd h (Option.noConfusion)
      · rcases Nat.lt_succ_iff_lt_or_eq.mp hy with hy' | hy'
        · exact ih hrec y hy'
        · exact hy' ▸ hn

/-- The search returns the least root. -/
theorem findSqrtAux_min {p s : Nat} :
    ∀ {n x : Nat}, findSqrtAux p s n = some x → ∀ y, y < x → y * y % p ≠ s := by
  intro n
  induction n with
  | zero => intro x h; simp [findSqrtAux] at h
  | succ n ih =>
    intro x h y hy
    unfold findSqrtAux at h
    cases hrec : findSqrtAux p s n with
    | some z =>
      rw [hrec] at h
      injection h with h
      exact ih (h ▸ hrec) y hy
    | none =>
      rw [hrec] at h
      by_cases hn : n * n % p = s
      · rw [if_pos hn] at h
        injection h with h
        exact findSqrtAux_none hrec y (h ▸ hy)
      · rw [if_neg hn] at h
        exact absurd h (Option.noConfusion)

/-- Cast a modular-arithmetic root equation into `ZMod p`. -/
theorem natCast_sq_eq {p : Nat} [NeZero p] {x : Nat} {s : ZMod p}
    (h : x * x % p = s.val) : ((x : ZMod p)) ^ 2 = s := by
  have h1 : ((x * x % p : Nat) : ZMod p) = ((s.val : Nat) : ZMod p) := by rw [h]
  rw [ZMod.natCast_mod, Nat.cast_mul, ZMod.natCast_rightInverse s] at h1
  rw [pow_two, h1]

/-- The search succeeds exactly on squares. -/
theorem findSqrt_isSome_iff {p : Nat} [NeZero p] (s : ZMod p) :
    (findSqrt p s).isSome ↔ IsSquare s := by
  constructor
  · intro h
    obtain ⟨x, hx⟩ := Option.isSome_iff_exists.mp h
    obtain ⟨_, hsq⟩ := findSqrtAux_some hx
    exact ⟨(x : ZMod p), by rw [← pow_two, natCast_sq_eq hsq]⟩
  · rintro ⟨r, hr⟩
    have hy : r.val * r.val % p = s.val := by
      rw [← ZMod.val_mul, hr]
    cases hf : findSqrt p s with
    | some x => rfl
    | none => exact absurd hy (findSqrtAux_none hf r.val (ZMod.val_lt r))

/-- On squares, `sqrtCanon` returns a square root. -/
theorem sqrtCanon_sq {p : Nat} [NeZero p] (s : ZMod p) (hs : IsSquare s) :
    (sqrtCanon p s) ^ 2 = s := by
  have hsome := (findSqrt_isSome_iff s).mpr hs
  unfold sqrtCanon
  cases hf : findSqrt p s with
  | some x =>
    obtain ⟨_, hsq⟩ := findSqrtAux_some hf
    exact natCast_sq_eq hsq
  | none => rw [hf] at hsome; exact absurd hsome (by simp)

/-- `sqrtCanon` always returns the canonical (smaller) representative:
its value is at most that of its negation. -/
theorem sqrtCanon_canonical {p : Nat} [NeZero p] (s : ZMod p) :
    (sqrtCanon p s).val ≤ p - (sqrtCanon p s).val := by
  unfold sqrtCanon
  cases hf : findSqrt p s with
  | none => simp [ZMod.val_zero]
  | some x =>
    obtain ⟨hxp, hxx⟩ := findSqrtAux_some hf
    rw [ZMod.val_cast_of_lt hxp]
    by_contra hcon
    push_neg at hcon
    have hyx : p - x < x := hcon
    have hcast : (((p - x) * (p - x) : Nat) : ZMod p) = ((x * x : Nat) : ZMod p) := by
      push_cast [Nat.cast_sub hxp.le]
      rw [ZMod.natCast_self]
      ring
    have hyy : (p - x) * (p - x) % p = x * x % p := by
      have e1 : (((p - x) * (p - x) : Nat) : ZMod p).val = ((x * x : Nat) : ZMod p).val := by
        rw [hcast]
      rwa [ZMod.val_natCast, ZMod.val_natCast] at e1
    exact findSqrtAux_min hf (p - x) hyx (hyy.trans hxx)

/-- In a finite field the product of two non-squares is a square. -/
theorem isSquare_mul_of_not_of_not {F : Type} [Field F] [Fintype F] [DecidableEq F]
    {u q : F} (hu : ¬IsSquare u) (hq : ¬IsSquare q) : IsSquare (u * q) := by
  have hu0 : u ≠ 0 := fun h => hu (h ▸ isSquare_zero)
  have hq0 : q ≠ 0 := fun h => hq (h ▸ isSquare_zero)
  have h1 : quadraticChar F u = -1 := quadraticChar_neg_one_iff_not_isSquare.mpr hu
  have h2 : quadraticChar F q = -1 := quadraticChar_neg_one_iff_not_isSquare.mpr hq
  have h3 : quadraticChar F (u * q) = 1 := by rw [map_mul, h1, h2]; norm_num
  exact (quadraticChar_one_iff_isSquare (mul_ne_zero hu0 hq0)).mp h3

instance : Fact (Nat.Prime 7) := ⟨by norm_num⟩

instance : Fact (Nat.Prime 13) := ⟨by norm_num⟩

/-- C2 (amended): with a quadratic-nonresidue multiplier `u` in place of the
cube root of unity `ZETA`, for `d ≠ 0` and `q = n/d`: a `(true, r)` result
has `r² = q` with `q` a nonzero square or `n = 0` and `r = 0`; a `(false, r)`
result has `r² = u·q`; and `r` is always canonical (`r ≤ p - r`). -/
theorem sqrt_ratio_correct {p : Nat} [Fact p.Prime] (u n d : ZMod p)
    (hu : ¬IsSquare u) (hd : d ≠ 0) :
    ((sqrt_ratio p u n d).1 = true →
        (sqrt_ratio p u n d).2 ^ 2 = n / d ∧
          ((n / d ≠ 0 ∧ IsSquare (n / d)) ∨ (n = 0 ∧ (sqrt_ratio p u n d).2 = 0))) ∧
      ((sqrt_ratio p u n d).1 = false → (sqrt_ratio p u n d).2 ^ 2 = u * (n / d)) ∧
      (sqrt_ratio p u n d).2.val ≤ p - (sqrt_ratio p u n d).2.val := by
  haveI : NeZero p := NeZero.of_pos (Fact.out : p.Prime).pos
  have hunfold : sqrt_ratio p u n d =
      (if n / d = 0 then (true, 0)
        else if (findSqrt p (n / d)).isSome then (true, sqrtCanon p (n / d))
        else (false, sqrtCanon p (u * (n / d)))) := by
    unfold sqrt_ratio
    rw [if_neg hd]
  by_cases hq0 : n / d = 0
  · rw [hunfold, if_pos hq0]
    have hn0 : n = 0 := by
      rcases div_eq_zero_iff.mp hq0 with h | h
      · exact h
      · exact absurd h hd
    refine ⟨fun _ => ⟨?_, Or.inr ⟨hn0, rfl⟩⟩, fun h => absurd h (by simp), ?_⟩
    · rw [hq0]
      norm_num
    · simp [ZMod.val_zero]
  · by_cases hsq : (findSqrt p (n / d)).isSome
    · rw [hunfold, if_neg hq0, if_pos hsq]
      have hisq : IsSquare (n / d) := (findSqrt_isSome_iff (n / d)).mp hsq
      exact ⟨fun _ => ⟨sqrtCanon_sq (n / d) hisq, Or.inl ⟨hq0, hisq⟩⟩,
        fun h => absurd h (by simp), sqrtCanon_canonical (n / d)⟩
    · rw [hunfold, if_neg hq0, if_neg hsq]
      have hnsq : ¬IsSquare (n / d) := fun h => hsq ((findSqrt_isSome_iff (n / d)).mpr h)
      have huq : IsSquare (u * (n / d)) := isSquare_mul_of_not_of_not hu hnsq
      exact ⟨fun h => absurd h (by simp), fun _ => sqrtCanon_sq (u * (n / d)) huq,
        sqrtCanon_canonical (u * (n / d))⟩

/-- Closed-form instance of `sqrt_ratio_correct` at `p = 7`, `u = 3`
(a non-square mod 7), `n = 3`, `d = 1`. -/
theorem sqrt_ratio_correct_witness :
    ((¬IsSquare (3 : ZMod 7)) ∧ (1 : ZMod 7) ≠ 0) ∧
      (((sqrt_ratio 7 3 3 1).1 = true →
          (sqrt_ratio 7 3 3 1).2 ^ 2 = (3 : ZMod 7) / 1 ∧
            (((3 : ZMod 7) / 1 ≠ 0 ∧ IsSquare ((3 : ZMod 7) / 1)) ∨
              ((3 : ZMod 7) = 0 ∧ (sqrt_ratio 7 3 3 1).2 = 0))) ∧
        ((sqrt_ratio 7 3 3 1).1 = false →
          (sqrt_ratio 7 3 3 1).2 ^ 2 = 3 * ((3 : ZMod 7) / 1)) ∧
        (sqrt_ratio 7 3 3 1).2.val ≤ 7 - (sqrt_ratio 7 3 3 1).2.val) :=
  ⟨⟨show ¬∃ r : ZMod 7, (3 : ZMod 7) = r * r by decide, by decide⟩,
    sqrt_ratio_correct 3 3 1 (show ¬∃ r : ZMod 7, (3 : ZMod 7) = r * r by decide) (by decide)⟩

/-- Counterexample to C2 as stated: over `GF(7)` with `ZETA = 2` (a primitive
cube root of unity, `2³ = 1`, `2 ≠ 1`), at `n = 3`, `d = 1 ≠ 0` the call
returns `(false, r)` with `r = 0`, yet `r² ≠ ZETA · (n/d)`: a cube root of
unity is itself a square (`ζ = (ζ²)²`), so `ζ·q` cannot be a square for
non-square `q` and no element of the field squares to `ZETA · (n/d) = 6`. -/
theorem sqrt_ratio_zeta_counterexample :
    ((2 : ZMod 7) ^ 3 = 1 ∧ (2 : ZMod 7) ≠ 1) ∧ (1 : ZMod 7) ≠ 0 ∧
      sqrt_ratio 7 2 3 1 = (false, 0) ∧
      ∀ r : ZMod 7, ¬r ^ 2 = 2 * ((3 : ZMod 7) / 1) := by
  have hdiv : (3 : ZMod 7) / 1 = 3 := div_one 3
  refine ⟨⟨by decide, by decide⟩, by decide, ?_, ?_⟩
  · show sqrt_ratio 7 2 3 1 = (false, 0)
    unfold sqrt_ratio
    rw [if_neg (by decide : ¬(1 : ZMod 7) = 0)]
    show (if (3 : ZMod 7) / 1 = 0 then (true, 0)
      else if (findSqrt 7 ((3 : ZMod 7) / 1)).isSome then (true, sqrtCanon 7 ((3 : ZMod 7) / 1))
      else (false, sqrtCanon 7 (2 * ((3 : ZMod 7) / 1)))) = (false, 0)
    rw [hdiv]
    decide
  · rw [hdiv]
    decide

/-- C3: with `div = 0`, `sqrt_ratio` does not fail but returns the sentinel
`(true, 0)` when `num = 0` and `(false, 0)` otherwise. -/
theorem sqrt_ratio_div_zero {p : Nat} [Fact p.Prime] (u n : ZMod p) :
    sqrt_ratio p u n 0 = if n = 0 then (true, 0) else (false, 0) := by
  unfold sqrt_ratio
  rw [if_pos rfl]

/-- Closed-form instances of `sqrt_ratio_div_zero` at `p = 7`: a zero and a
nonzero numerator. -/
theorem sqrt_ratio_div_zero_witness :
    sqrt_ratio 7 3 5 0 = (if (5 : ZMod 7) = 0 then (true, 0) else (false, 0)) ∧
      sqrt_ratio 7 3 0 0 = (if (0 : ZMod 7) = 0 then (true, 0) else (false, 0)) :=
  ⟨sqrt_ratio_div_zero 3 5, sqrt_ratio_div_zero 3 0⟩

/-- C8: `sqrt_alt(a)` returns the same `(choice, result)` pair as
`sqrt_ratio(a, 1)`. -/
theorem sqrt_alt_eq_sqrt_ratio {p : Nat} [Fact p.Prime] (zeta a : ZMod p) :
    sqrt_alt p zeta a = sqrt_ratio p zeta a 1 := by
  unfold sqrt_alt sqrt_ratio
  rw [if_neg (one_ne_zero : ¬(1 : ZMod p) = 0)]
  simp only [div_one]

/-- Closed-form instance of `sqrt_alt_eq_sqrt_ratio` at `p = 7`. -/
theorem sqrt_alt_eq_sqrt_ratio_witness :
    sqrt_alt 7 3 2 = sqrt_ratio 7 3 2 1 :=
  sqrt_alt_eq_sqrt_ratio 3 2

/-! ## Unimplemented adapter methods (C4) -/

/-- `<T as FieldExt>::from_bytes_wide` in the blanket impl
(src/arithmetic.rs:40): the body is the `unimplemented!()` macro, an
unconditional panic, so no input produces a value; modelled as `none`. -/
def from_bytes_wide (p : Nat) (bytes : Fin 64 → Fin 256) : Option (ZMod p) :=
  none

/-- `<T as FieldExt>::get_lower_128` in the blanket impl
(src/arithmetic.rs:59): the body is `unimplemented!()`, an unconditional
panic; modelled as `none`. -/
def get_lower_128 (p : Nat) (a : ZMod p) : Option Nat :=
  none

/-- `SqrtRatio::get_lower_32` default body (src/arithmetic.rs:102):
`unimplemented!()`, an unconditional panic; modelled as `none`. -/
def get_lower_32 (p : Nat) (a : ZMod p) : Option Nat :=
  none

/-- C4 fails on the code: the shim's `from_bytes_wide`, `get_lower_128` and
`get_lower_32` bodies are `unimplemented!()` and panic on every input —
evaluated here at concrete inputs, none of them returns a value. -/
theorem unimplemented_methods_return_no_value :
    from_bytes_wide 5 (fun _ => 0) = none ∧
      get_lower_128 5 (0 : ZMod 5) = none ∧
      get_lower_32 5 (0 : ZMod 5) = none :=
  ⟨rfl, rfl, rfl⟩

/-! ## The `Group` blanket capability (C6) -/

/-- The `Group` capability of src/arithmetic.rs:66-82: an additive identity,
in-place add and subtract, and scaling by an associated scalar type. -/
structure GroupOps (G : Type) (S : Type) where
  group_zero : G
  group_add : G → G → G
  group_sub : G → G → G
  group_scale : G → S → G

/-- Modelled from the spec: the blanket impl `impl<T: ff::PrimeField> Group
for T` (src/arithmetic.rs:84-85) has an empty body in the source, so the
method bodies are absent; spec §4.1's blanket rule supplies them — every
prime field is a group with itself as scalar field, `zero` is the field
zero, add/sub are field addition/subtraction, `scale(x, k)` is the field
multiplication `x ← k · x`. -/
def primeFieldGroup (p : Nat) : GroupOps (ZMod p) (ZMod p) where
  group_zero := 0
  group_add := fun x y => x + y
  group_sub := fun x y => x - y
  group_scale := fun x k => k * x

/-- C6: the prime-field instance of the `Group` capability has the field as
its own scalar type, `group_zero` the additive zero, `group_add`/`group_sub`
field addition/subtraction, and `group_scale x k = k * x`. -/
theorem primeField_group_spec (p : Nat) :
    (primeFieldGroup p).group_zero = (0 : ZMod p) ∧
      (∀ x y : ZMod p, (primeFieldGroup p).group_add x y = x + y) ∧
      (∀ x y : ZMod p, (primeFieldGroup p).group_sub x y = x - y) ∧
      (∀ x k : ZMod p, (primeFieldGroup p).group_scale x k = k * x) :=
  ⟨rfl, fun _ _ => rfl, fun _ _ => rfl, fun _ _ => rfl⟩

/-! ## Constant laws (C7) -/

instance : Fact (Nat.Prime 3) := ⟨by norm_num⟩

/-- Modelled from the spec: the constants of the extended field contract are
supplied by the `ff` backend (src/arithmetic.rs:21-33) and are absent from
this repository; their defining properties are taken from the source's doc
comments and spec §3 — `TWO_INV` is the inverse of 2, `ZETA` an element of
multiplicative order 3, `ROOT_OF_UNITY_INV` the inverse of the backend's
root of unity (itself a `2^S`-th root of unity), `DELTA` a generator of the
`T`-order subgroup, with `p - 1 = 2^S · T` and `T` odd. -/
structure ConformingConstants (p : Nat) where
  TWO_INV : ZMod p
  ZETA : ZMod p
  ROOT_OF_UNITY : ZMod p
  ROOT_OF_UNITY_INV : ZMod p
  DELTA : ZMod p
  S : Nat
  T : Nat
  T_odd : Odd T
  decomp : p - 1 = 2 ^ S * T
  two_inv_spec : TWO_INV = (2 : ZMod p)⁻¹
  zeta_order : orderOf ZETA = 3
  rou_unity : ROOT_OF_UNITY ^ 2 ^ S = 1
  rou_inv_spec : ROOT_OF_UNITY_INV = ROOT_OF_UNITY⁻¹
  delta_order : orderOf DELTA = T

/-- C7: in every conforming field the exposed constants satisfy
`TWO_INV · 2 = 1`, `ZETA ≠ 1 ∧ ZETA³ = 1`,
`ROOT_OF_UNITY_INV · ROOT_OF_UNITY = 1`, and `DELTA^T = 1` with
`DELTA^(T/q) ≠ 1` for every prime `q` dividing `T`. -/
theorem constants_laws {p : Nat} [Fact p.Prime] (C : ConformingConstants p) (hp2 : p ≠ 2) :
    C.TWO_INV * 2 = 1 ∧ (C.ZETA ≠ 1 ∧ C.ZETA ^ 3 = 1) ∧
      C.ROOT_OF_UNITY_INV * C.ROOT_OF_UNITY = 1 ∧
      C.DELTA ^ C.T = 1 ∧ ∀ q : Nat, q.Prime → q ∣ C.T → C.DELTA ^ (C.T / q) ≠ 1 := by
  refine ⟨?_, ⟨?_, ?_⟩, ?_, ?_, ?_⟩
  · rw [C.two_inv_spec]
    have h2 : (2 : ZMod p) ≠ 0 := by
      intro h
      rw [show ((2 : ZMod p)) = ((2 : Nat) : ZMod p) by norm_num] at h
      have hdvd := (ZMod.natCast_zmod_eq_zero_iff_dvd 2 p).mp h
      exact hp2 ((Nat.prime_dvd_prime_iff_eq (Fact.out : p.Prime) Nat.prime_two).mp hdvd)
    exact inv_mul_cancel₀ h2
  · intro h
    have horder := C.zeta_order
    rw [h, orderOf_one] at horder
    omega
  · have hpow := pow_orderOf_eq_one C.ZETA
    rwa [C.zeta_order] at hpow
  · rw [C.rou_inv_spec]
    have hne : C.ROOT_OF_UNITY ≠ 0 := by
      intro h
      have hone := C.rou_unity
      rw [h, zero_pow (pow_pos (by norm_num : (0 : Nat) < 2) C.S).ne'] at hone
      exact zero_ne_one hone
    exact inv_mul_cancel₀ hne
  · have hpow := pow_orderOf_eq_one C.DELTA
    rwa [C.delta_order] at hpow
  · intro q hq hdvd hpow
    have horder := orderOf_dvd_of_pow_eq_one hpow
    rw [C.delta_order] at horder
    have hT0 : C.T ≠ 0 := by
      rcases C.T_odd with ⟨k, hk⟩
      omega
    have hqT : q ≤ C.T := Nat.le_of_dvd (Nat.pos_of_ne_zero hT0) hdvd
    have hdivpos : 0 < C.T / q := Nat.div_pos hqT hq.pos
    have hle : C.T ≤ C.T / q := Nat.le_of_dvd hdivpos horder
    have hlt : C.T / q < C.T := Nat.div_lt_self (Nat.pos_of_ne_zero hT0) hq.one_lt
    omega

/-- A concrete conforming-constants record for `GF(13)`:
`12 = 2² · 3`, `TWO_INV = 7`, `ZETA = 3`, `ROOT_OF_UNITY = 5` (order 4),
`ROOT_OF_UNITY_INV = 8`, `DELTA = 9` (order `T = 3`). -/
def constants13 : ConformingConstants 13 where
  TWO_INV := 7
  ZETA := 3
  ROOT_OF_UNITY := 5
  ROOT_OF_UNITY_INV := 8
  DELTA := 9
  S := 2
  T := 3
  T_odd := by decide
  decomp := by norm_num
  two_inv_spec := eq_inv_of_mul_eq_one_left (by decide : (7 : ZMod 13) * 2 = 1)
  zeta_order := orderOf_eq_prime (by decide : (3 : ZMod 13) ^ 3 = 1) (by decide)
  rou_unity := by decide
  rou_inv_spec := eq_inv_of_mul_eq_one_left (by decide : (8 : ZMod 13) * 5 = 1)
  delta_order := orderOf_eq_prime (by decide : (9 : ZMod 13) ^ 3 = 1) (by decide)

/-- Closed-form instance of `constants_laws` at the `GF(13)` record. -/
theorem constants_laws_witness :
    (13 : Nat) ≠ 2 ∧
      (constants13.TWO_INV * 2 = 1 ∧ (constants13.ZETA ≠ 1 ∧ constants13.ZETA ^ 3 = 1) ∧
        constants13.ROOT_OF_UNITY_INV * constants13.ROOT_OF_UNITY = 1 ∧
        constants13.DELTA ^ constants13.T = 1 ∧
        ∀ q : Nat, q.Prime → q ∣ constants13.T → constants13.DELTA ^ (constants13.T / q) ≠ 1) :=
  ⟨by norm_num, constants_laws constants13 (by norm_num)⟩
